import Mathlib

/-!
Shallow embedding of `src/assign_events.py` (a greedy participant-to-event
assignment engine) and verification of its specification.

Dates are represented by their proleptic Gregorian ordinal (an integer count
of days, `datetime.date.toordinal()`), so that day arithmetic is integer
subtraction and the weekday of an ordinal `d` is determined by `(d - 1) % 7`
(ordinal 1, i.e. 0001-01-01, is a Monday).  Python floats for distances are
modelled by rationals; per-event counters (`defaultdict(int)`) are modelled
by functions `String → Nat` that default to 0.
-/

namespace Matching

/-- Lowercased weekday names, indexed so that `(ordinal - 1) % 7 = 0` is
Monday, matching Python's `date.strftime("%A").lower()`. -/
def dayNamesLower : List String :=
  ["monday", "tuesday", "wednesday", "thursday", "friday", "saturday", "sunday"]

/-- The lowercased weekday name of a date given by its ordinal. -/
def dayName (d : Int) : String :=
  dayNamesLower.getD ((d - 1).emod 7).toNat ""

/-- `Participant` dataclass from the source.  `preferred_days` is a Python
set used only through membership and truthiness, modelled as a list. -/
structure Participant where
  name : String
  preferred_school : Option Bool
  preferred_days : List String
  distance : Option ℚ
  country : Option String
  gender : Option String
deriving DecidableEq

/-- `Event` dataclass from the source; `date` is the ordinal of the date. -/
structure Event where
  name : String
  date : Int
  location : String
  capacity : Nat
  school_event : Option Bool
deriving DecidableEq

def defaultParticipant : Participant := ⟨"", none, [], none, none, none⟩

def defaultEvent : Event := ⟨"", 0, "", 0, none⟩

/-- `days_between(d1, d2) = abs((d1 - d2).days)` from the source. -/
def days_between (d1 d2 : Int) : Nat := (d1 - d2).natAbs

/-- Python truthiness of an optional string (`None` and `""` are falsy). -/
def truthy : Option String → Bool
  | none => false
  | some s => !s.isEmpty

/-- A `defaultdict(int)` keyed by strings: total function defaulting to 0. -/
abbrev Counts := String → Nat

/-- `counts[k] += 1`. -/
def bump (c : Counts) (k : String) : Counts :=
  fun s => if s = k then c s + 1 else c s

/-- `counts[k] += 1 if k is truthy` — the guarded increments in the source
(`if chosen.country: ...`, `if chosen.gender: ...`, and the guard inside
`gender_diff`). -/
def bumpIf (c : Counts) (v : Option String) : Counts :=
  if truthy v then bump c (v.getD "") else c

/-- `gender_diff` from the source: copy the counters, add one to the
candidate's gender bucket when the gender is truthy, return `|M − F|`. -/
def gender_diff (gender_counts : Counts) (gender : Option String) : Nat :=
  let counts := bumpIf gender_counts gender
  ((counts "M" : Int) - (counts "F" : Int)).natAbs

/-- The 5-field composite ranking key returned by `candidate_key`. -/
structure Key where
  school_score : Nat
  day_score : Nat
  distance_score : ℚ
  country_score : Nat
  gender_score : Nat
deriving DecidableEq

/-- `candidate_key` from the source, field by field. -/
def candidate_key (p : Participant) (ev : Event)
    (country_counts gender_counts : Counts) : Key :=
  let school_score : Nat :=
    match p.preferred_school, ev.school_event with
    | some ps, some es => if ps ≠ es then 1 else 0
    | _, _ => 0
  let day := dayName ev.date
  let day_score : Nat := if p.preferred_days ≠ [] ∧ day ∉ p.preferred_days then 1 else 0
  let distance_score : ℚ := p.distance.getD 0
  let country_score : Nat :=
    match p.country with
    | none => 0
    | some c => country_counts c
  let gender_score : Nat := gender_diff gender_counts p.gender
  ⟨school_score, day_score, distance_score, country_score, gender_score⟩

/-- Python's lexicographic `<` on the 5-tuple key. -/
def keyLt (a b : Key) : Bool :=
  decide (a.school_score < b.school_score) ||
    (decide (a.school_score = b.school_score) &&
      (decide (a.day_score < b.day_score) ||
        (decide (a.day_score = b.day_score) &&
          (decide (a.distance_score < b.distance_score) ||
            (decide (a.distance_score = b.distance_score) &&
              (decide (a.country_score < b.country_score) ||
                (decide (a.country_score = b.country_score) &&
                  decide (a.gender_score < b.gender_score))))))))

/-- `a` sorts no later than `b`: the comparison a stable sort by `keyLt`
effectively uses (`¬ (key b < key a)`). -/
def keyLe (a b : Key) : Bool := !(keyLt b a)

example : keyLt ⟨0, 0, 5, 0, 0⟩ ⟨0, 0, 50, 0, 0⟩ = true := by decide

example : keyLe ⟨0, 1, 5, 0, 0⟩ ⟨0, 1, 5, 0, 0⟩ = true := by decide

/-- Stable insertion of `x` into a sorted list: `x` goes before the first
element `y` with `le x y`, hence before later-inserted equals. -/
def insertLe {α : Type} (le : α → α → Bool) (x : α) : List α → List α
  | [] => [x]
  | y :: ys => if le x y then x :: y :: ys else y :: insertLe le x ys

/-- Stable sort by the boolean comparison `le`, modelling Python's stable
`list.sort`.  Only the head of the result is used by the engine. -/
def sortLe {α : Type} (le : α → α → Bool) : List α → List α
  | [] => []
  | x :: xs => insertLe le x (sortLe le xs)

/-- Mutable assignment state: for each participant index, the list of event
indices it is assigned to, and for each event index, the list of participant
indices assigned to it (both in append order). -/
structure AState where
  pA : List (List Nat)
  eA : List (List Nat)
deriving DecidableEq

/-- The eligibility test of the source's list comprehension:
`len(p.assignments) < 2 and all(days_between(event.date, e.date) >= 30
for e in p.assignments)`, with `pa` the participant's assigned event
indices. -/
def eligibleB (events : List Event) (ev : Event) (pa : List Nat) : Bool :=
  decide (pa.length < 2) &&
    pa.all (fun ei => decide (30 ≤ days_between ev.date (events.getD ei defaultEvent).date))

/-- The candidate pool for one slot: eligible participant indices, in input
order. -/
def candidatesFor (ps : List Participant) (events : List Event) (ev : Event)
    (st : AState) : List Nat :=
  (List.range ps.length).filter (fun i => eligibleB events ev (st.pA.getD i []))

/-- The ranking key of the participant at index `i`. -/
def keyOf (ps : List Participant) (ev : Event) (cc gc : Counts) (i : Nat) : Key :=
  candidate_key (ps.getD i defaultParticipant) ev cc gc

/-- `candidates.sort(key=...)` followed by `candidates[0]`, as an option
(`none` when the pool is empty, which the source handles by `break`). -/
def chooseFor (ps : List Participant) (events : List Event) (ev : Event)
    (cc gc : Counts) (st : AState) : Option Nat :=
  (sortLe (fun a b => keyLe (keyOf ps ev cc gc a) (keyOf ps ev cc gc b))
    (candidatesFor ps events ev st)).head?

/-- The two appends of the commit step: event index onto the participant's
list, participant index onto the event's list. -/
def commitState (st : AState) (i evIdx : Nat) : AState :=
  ⟨st.pA.set i (st.pA.getD i [] ++ [evIdx]),
   st.eA.set evIdx (st.eA.getD evIdx [] ++ [i])⟩

/-- The slot-filling loop for one event (`for _ in range(event.capacity)`),
with the remaining iteration count as fuel and the per-event counters
threaded through. -/
def fillEvent (ps : List Participant) (events : List Event) (evIdx : Nat) :
    Nat → AState → Counts → Counts → AState
  | 0, st, _, _ => st
  | n + 1, st, cc, gc =>
    let ev := events.getD evIdx defaultEvent
    match chooseFor ps events ev cc gc st with
    | none => st
    | some i =>
      let p := ps.getD i defaultParticipant
      fillEvent ps events evIdx n (commitState st i evIdx)
        (bumpIf cc p.country) (bumpIf gc p.gender)

/-- The state after processing the first `k` events, each with fresh
counters, starting from empty assignment lists. -/
def runPrefix (ps : List Participant) (events : List Event) (k : Nat) : AState :=
  (List.range k).foldl
    (fun st ei =>
      fillEvent ps events ei (events.getD ei defaultEvent).capacity st
        (fun _ => 0) (fun _ => 0))
    ⟨ps.map (fun _ => []), events.map (fun _ => [])⟩

/-- `assign_events` from the source: process every event in input order. -/
def assign_events (ps : List Participant) (events : List Event) : AState :=
  runPrefix ps events events.length

/-- An intermediate commit point: the first `k` events fully processed, then
`j` slot iterations of event `k` (each iteration commits at most one
participant). -/
def midState (ps : List Participant) (events : List Event) (k j : Nat) : AState :=
  fillEvent ps events k j (runPrefix ps events k) (fun _ => 0) (fun _ => 0)

section SanityChecks

def p1 : Participant := ⟨"P1", none, [], none, none, none⟩
def p2 : Participant := ⟨"P2", none, ["tuesday"], none, none, none⟩
def evA : Event := ⟨"A", 738900, "L", 2, none⟩

example : assign_events [p1, p2] [evA] = ⟨[[0], [0]], [[0, 1]]⟩ := by decide

end SanityChecks

/-! ### The key comparison is a linear preorder -/

/-- The key as a lexicographic tuple, to transfer Mathlib's linear order. -/
def toTuple (a : Key) : ℕ ×ₗ (ℕ ×ₗ (ℚ ×ₗ (ℕ ×ₗ ℕ))) :=
  toLex (a.school_score, toLex (a.day_score,
    toLex (a.distance_score, toLex (a.country_score, a.gender_score))))

theorem keyLt_iff (a b : Key) : keyLt a b = true ↔ toTuple a < toTuple b := by
  simp only [keyLt, toTuple, Bool.or_eq_true, Bool.and_eq_true, decide_eq_true_eq,
    Prod.Lex.lt_iff]

theorem keyLe_iff (a b : Key) : keyLe a b = true ↔ toTuple a ≤ toTuple b := by
  rw [keyLe, Bool.not_eq_true', ← Bool.not_eq_true, not_iff_comm, keyLt_iff, not_le]

theorem keyLe_total (a b : Key) : keyLe a b = true ∨ keyLe b a = true := by
  rw [keyLe_iff, keyLe_iff]; exact le_total _ _

theorem keyLe_trans {a b c : Key} (h1 : keyLe a b = true) (h2 : keyLe b c = true) :
    keyLe a c = true := by
  rw [keyLe_iff] at *; exact le_trans h1 h2

/-! ### Head of a stable sort -/

theorem insertLe_head {α : Type} (le : α → α → Bool) (x : α) (l : List α) :
    (insertLe le x l).head? =
      some (match l.head? with
        | none => x
        | some y => if le x y then x else y) := by
  cases l with
  | nil => rfl
  | cons y ys =>
    simp only [insertLe, List.head?_cons]
    by_cases h : le x y <;> simp [h]

/-- The earliest element of `l` that compares `le` to everything after it —
the value a stable sort puts first. -/
def firstMinLe {α : Type} (le : α → α → Bool) : List α → Option α
  | [] => none
  | x :: xs =>
    some (match firstMinLe le xs with
      | none => x
      | some m => if le x m then x else m)

theorem sortLe_head {α : Type} (le : α → α → Bool) (l : List α) :
    (sortLe le l).head? = firstMinLe le l := by
  induction l with
  | nil => rfl
  | cons x xs ih =>
    rw [sortLe, insertLe_head, ih, firstMinLe]

theorem firstMinLe_eq_none {α : Type} (le : α → α → Bool) (l : List α) :
    firstMinLe le l = none ↔ l = [] := by
  cases l <;> simp [firstMinLe]

theorem find?_congr_mem {α : Type} {p q : α → Bool} :
    ∀ {l : List α}, (∀ a ∈ l, p a = q a) → l.find? p = l.find? q
  | [], _ => rfl
  | x :: xs, h => by
    have hx : p x = q x := h x (List.mem_cons_self x xs)
    have ih := find?_congr_mem (fun a ha => h a (List.mem_cons_of_mem x ha))
    simp only [List.find?]
    rw [hx, ih]

theorem firstMinLe_eq_find {α : Type} (le : α → α → Bool)
    (htot : ∀ a b, le a b = true ∨ le b a = true)
    (htrans : ∀ a b c, le a b = true → le b c = true → le a c = true) :
    ∀ l : List α, firstMinLe le l = l.find? (fun c => l.all (fun d => le c d))
  | [] => rfl
  | x :: xs => by
    have ih := firstMinLe_eq_find le htot htrans xs
    have hrefl : ∀ a : α, le a a = true := fun a => (htot a a).elim id id
    rcases hm : firstMinLe le xs with _ | m
    · have hnil : xs = [] := (firstMinLe_eq_none le xs).mp hm
      subst hnil
      simp [firstMinLe, List.find?, hrefl x]
    · have h2 : xs.find? (fun c => xs.all fun d => le c d) = some m := ih ▸ hm
      have hmem : m ∈ xs := List.mem_of_find?_eq_some h2
      have hall : xs.all (fun d => le m d) = true :=
        List.find?_some (p := fun c => xs.all fun d => le c d) h2
      have hmall : ∀ d ∈ xs, le m d = true := by
        intro d hd; exact List.all_eq_true.mp hall d hd
      have hstep : firstMinLe le (x :: xs) = some (if le x m then x else m) := by
        simp only [firstMinLe]
        rw [hm]
      rw [hstep]
      by_cases hxm : le x m = true
      · have hpx : (List.all (x :: xs) fun d => le x d) = true := by
          rw [List.all_eq_true]
          intro d hd
          rcases List.mem_cons.mp hd with h | h
          · exact h ▸ hrefl x
          · exact htrans x m d hxm (hmall d h)
        rw [List.find?_cons_of_pos
          (p := fun c => (x :: xs).all fun d => le c d) _ hpx, if_pos hxm]
      · have hmx : le m x = true := (htot x m).resolve_left hxm
        have hpx : ¬ ((fun c => (x :: xs).all fun d => le c d) x) = true := by
          intro hc
          exact hxm (List.all_eq_true.mp hc m (List.mem_cons_of_mem x hmem))
        rw [List.find?_cons_of_neg
          (p := fun c => (x :: xs).all fun d => le c d) _ hpx, if_neg hxm]
        have hcongr : ∀ a ∈ xs,
            (List.all (x :: xs) fun d => le a d) = (xs.all fun d => le a d) := by
          intro a _
          rw [List.all_cons]
          rcases ha : xs.all (fun d => le a d) with _ | _
          · exact Bool.and_false _
          · have haall : ∀ d ∈ xs, le a d = true := fun d hd =>
              List.all_eq_true.mp ha d hd
            rw [htrans a m x (haall m hmem) hmx, Bool.true_and]
        rw [find?_congr_mem hcongr, ← ih, hm]

/-- If `l` is strictly increasing, `find?` returns the least element of `l`
satisfying the predicate. -/
theorem find_min_le {P : Nat → Bool} :
    ∀ {l : List Nat}, l.Pairwise (· < ·) → ∀ {c d : Nat},
      l.find? P = some c → d ∈ l → P d = true → c ≤ d
  | [], _, _, _, h, _, _ => by cases h
  | x :: xs, hl, c, d, hfind, hd, hPd => by
    rcases hx : P x with _ | _
    · rw [List.find?_cons_of_neg _ (by simp [hx])] at hfind
      rcases List.mem_cons.mp hd with h | h
      · rw [h] at hPd; rw [hPd] at hx; cases hx
      · exact find_min_le (List.pairwise_cons.mp hl).2 hfind h hPd
    · rw [List.find?_cons_of_pos _ hx] at hfind
      have hc : c = x := by injection hfind with h'; exact h'.symm
      subst hc
      rcases List.mem_cons.mp hd with h | h
      · exact le_of_eq h.symm
      · exact le_of_lt ((List.pairwise_cons.mp hl).1 d h)

/-! ### List access helpers -/

theorem getD_set_self {l : List (List Nat)} {n : Nat} {v : List Nat}
    (h : n < l.length) : (l.set n v).getD n [] = v := by
  rw [List.getD_eq_getElem?_getD, List.getElem?_set_self', List.getElem?_eq_getElem h]
  rfl

theorem getD_set_ne (l : List (List Nat)) {n m : Nat} (v : List Nat)
    (h : m ≠ n) : (l.set n v).getD m [] = l.getD m [] := by
  rw [List.getD_eq_getElem?_getD, List.getElem?_set_ne (by omega),
    ← List.getD_eq_getElem?_getD]

theorem getD_oor {α : Type} {l : List α} {n : Nat} (d : α)
    (h : l.length ≤ n) : l.getD n d = d := by
  rw [List.getD_eq_getElem?_getD, List.getElem?_eq_none h]
  rfl

theorem getD_map_nil {α : Type} (ps : List α) (i : Nat) :
    (ps.map (fun _ => ([] : List Nat))).getD i [] = [] := by
  rw [List.getD_eq_getElem?_getD, List.getElem?_map]
  cases ps[i]? <;> rfl

/-! ### The per-slot choice (claim C2 infrastructure) -/

theorem mem_candidatesFor {ps : List Participant} {events : List Event}
    {ev : Event} {st : AState} {i : Nat} :
    i ∈ candidatesFor ps events ev st ↔
      i < ps.length ∧ eligibleB events ev (st.pA.getD i []) = true := by
  simp [candidatesFor, List.mem_filter, List.mem_range]

theorem candidatesFor_pairwise (ps : List Participant) (events : List Event)
    (ev : Event) (st : AState) :
    (candidatesFor ps events ev st).Pairwise (· < ·) :=
  (List.pairwise_lt_range ps.length).filter _

/-- The head of the stable sort in `assign_events` is the first candidate
whose key is `keyLe`-below every candidate's key. -/
theorem chooseFor_eq_find (ps : List Participant) (events : List Event)
    (ev : Event) (cc gc : Counts) (st : AState) :
    chooseFor ps events ev cc gc st =
      (candidatesFor ps events ev st).find?
        (fun c => (candidatesFor ps events ev st).all
          (fun d => keyLe (keyOf ps ev cc gc c) (keyOf ps ev cc gc d))) := by
  rw [chooseFor, sortLe_head, firstMinLe_eq_find]
  · intro a b
    exact keyLe_total (keyOf ps ev cc gc a) (keyOf ps ev cc gc b)
  · intro a b c hab hbc
    exact keyLe_trans hab hbc

theorem chooseFor_mem {ps : List Participant} {events : List Event}
    {ev : Event} {cc gc : Counts} {st : AState} {i : Nat}
    (h : chooseFor ps events ev cc gc st = some i) :
    i ∈ candidatesFor ps events ev st := by
  rw [chooseFor_eq_find] at h
  exact List.mem_of_find?_eq_some h

theorem chooseFor_none {ps : List Participant} {events : List Event}
    {ev : Event} {cc gc : Counts} {st : AState}
    (h : chooseFor ps events ev cc gc st = none) :
    candidatesFor ps events ev st = [] := by
  rw [chooseFor, sortLe_head] at h
  rcases hc : candidatesFor ps events ev st with _ | ⟨x, xs⟩
  · rfl
  · rw [hc, firstMinLe] at h
    cases h

/-! ### Structural invariants of the engine -/

theorem days_between_comm (d1 d2 : Int) : days_between d1 d2 = days_between d2 d1 := by
  simp only [days_between]
  omega

theorem days_between_self (d : Int) : days_between d d = 0 := by
  simp [days_between]

theorem eligibleB_iff {events : List Event} {ev : Event} {pa : List Nat} :
    eligibleB events ev pa = true ↔
      pa.length < 2 ∧ ∀ e ∈ pa, 30 ≤ days_between ev.date (events.getD e defaultEvent).date := by
  simp [eligibleB, List.all_eq_true]

theorem fillEvent_succ (ps : List Participant) (events : List Event)
    (evIdx n : Nat) (st : AState) (cc gc : Counts) :
    fillEvent ps events evIdx (n + 1) st cc gc =
      match chooseFor ps events (events.getD evIdx defaultEvent) cc gc st with
      | none => st
      | some i =>
        fillEvent ps events evIdx n (commitState st i evIdx)
          (bumpIf cc (ps.getD i defaultParticipant).country)
          (bumpIf gc (ps.getD i defaultParticipant).gender) := rfl

/-- The 30-day spacing relation between two assigned event indices. -/
def Spaced (events : List Event) (a b : Nat) : Prop :=
  30 ≤ days_between (events.getD a defaultEvent).date (events.getD b defaultEvent).date

theorem spaced_symm (events : List Event) : Symmetric (Spaced events) := by
  intro a b h
  rw [Spaced, days_between_comm]
  exact h

/-- The relationship invariants maintained by the engine: well-formed index
ranges, the 30-day spacing of each participant's assignments, no duplicate
assignment on either side, and symmetry of the assignment relation. -/
structure Inv (ps : List Participant) (events : List Event) (st : AState) : Prop where
  pLen : st.pA.length = ps.length
  eLen : st.eA.length = events.length
  pVal : ∀ i e, e ∈ st.pA.getD i [] → e < events.length
  eVal : ∀ j q, q ∈ st.eA.getD j [] → q < ps.length
  spac : ∀ i, (st.pA.getD i []).Pairwise (Spaced events)
  pNd : ∀ i, (st.pA.getD i []).Nodup
  eNd : ∀ j, (st.eA.getD j []).Nodup
  sym : ∀ i j, i ∈ st.eA.getD j [] ↔ j ∈ st.pA.getD i []

theorem inv_init (ps : List Participant) (events : List Event) :
    Inv ps events ⟨ps.map fun _ => [], events.map fun _ => []⟩ := by
  refine ⟨?_, ?_, ?_, ?_, ?_, ?_, ?_, ?_⟩ <;>
    simp [getD_map_nil]

theorem commit_inv {ps : List Participant} {events : List Event} {st : AState}
    (hInv : Inv ps events st) {i evIdx : Nat}
    (hi : i < ps.length) (hEv : evIdx < events.length)
    (helig : eligibleB events (events.getD evIdx defaultEvent)
      (st.pA.getD i []) = true) :
    Inv ps events (commitState st i evIdx) := by
  have hall : ∀ e ∈ st.pA.getD i [],
      30 ≤ days_between (events.getD evIdx defaultEvent).date
        (events.getD e defaultEvent).date :=
    (eligibleB_iff.mp helig).2
  have hNotP : evIdx ∉ st.pA.getD i [] := by
    intro hmem
    have h30 := hall evIdx hmem
    rw [days_between_self] at h30
    omega
  have hNotE : i ∉ st.eA.getD evIdx [] := fun h => hNotP ((hInv.sym i evIdx).mp h)
  have hiP : i < st.pA.length := hInv.pLen ▸ hi
  have hiE : evIdx < st.eA.length := hInv.eLen ▸ hEv
  have hgetP : (commitState st i evIdx).pA.getD i [] = st.pA.getD i [] ++ [evIdx] :=
    getD_set_self hiP
  have hgetE : (commitState st i evIdx).eA.getD evIdx [] = st.eA.getD evIdx [] ++ [i] :=
    getD_set_self hiE
  have hgetP' : ∀ i', i' ≠ i →
      (commitState st i evIdx).pA.getD i' [] = st.pA.getD i' [] :=
    fun i' h => getD_set_ne _ _ h
  have hgetE' : ∀ j', j' ≠ evIdx →
      (commitState st i evIdx).eA.getD j' [] = st.eA.getD j' [] :=
    fun j' h => getD_set_ne _ _ h
  refine ⟨?_, ?_, ?_, ?_, ?_, ?_, ?_, ?_⟩
  · simp [commitState, List.length_set, hInv.pLen]
  · simp [commitState, List.length_set, hInv.eLen]
  · intro i' e hmem
    by_cases h : i' = i
    · subst h
      rw [hgetP] at hmem
      rcases List.mem_append.mp hmem with h | h
      · exact hInv.pVal i' e h
      · rw [List.mem_singleton.mp h]
        exact hEv
    · rw [hgetP' i' h] at hmem
      exact hInv.pVal i' e hmem
  · intro j' q hmem
    by_cases h : j' = evIdx
    · subst h
      rw [hgetE] at hmem
      rcases List.mem_append.mp hmem with h | h
      · exact hInv.eVal j' q h
      · rw [List.mem_singleton.mp h]
        exact hi
    · rw [hgetE' j' h] at hmem
      exact hInv.eVal j' q hmem
  · intro i'
    by_cases h : i' = i
    · subst h
      rw [hgetP, List.pairwise_append]
      refine ⟨hInv.spac i', List.pairwise_singleton _ _, ?_⟩
      intro a ha b hb
      rw [List.mem_singleton.mp hb]
      exact spaced_symm events (hall a ha)
    · rw [hgetP' i' h]
      exact hInv.spac i'
  · intro i'
    by_cases h : i' = i
    · subst h
      rw [hgetP]
      simp only [List.nodup_append, List.nodup_singleton, true_and,
        List.disjoint_singleton]
      exact ⟨hInv.pNd i', hNotP⟩
    · rw [hgetP' i' h]
      exact hInv.pNd i'
  · intro j'
    by_cases h : j' = evIdx
    · subst h
      rw [hgetE]
      simp only [List.nodup_append, List.nodup_singleton, true_and,
        List.disjoint_singleton]
      exact ⟨hInv.eNd j', hNotE⟩
    · rw [hgetE' j' h]
      exact hInv.eNd j'
  · intro i' j'
    by_cases hij : i' = i
    · subst hij
      by_cases hj : j' = evIdx
      · subst hj
        rw [hgetP, hgetE]
        simp [List.mem_append]
      · rw [hgetP, hgetE' j' hj, List.mem_append, List.mem_singleton]
        constructor
        · intro h
          exact Or.inl ((hInv.sym i' j').mp h)
        · intro h
          rcases h with h | h
          · exact (hInv.sym i' j').mpr h
          · exact absurd h hj
    · by_cases hj : j' = evIdx
      · subst hj
        rw [hgetE, hgetP' i' hij, List.mem_append, List.mem_singleton]
        constructor
        · intro h
          rcases h with h | h
          · exact (hInv.sym i' j').mp h
          · exact absurd h hij
        · intro h
          exact Or.inl ((hInv.sym i' j').mpr h)
      · rw [hgetP' i' hij, hgetE' j' hj]
        exact hInv.sym i' j'

theorem fill_inv {ps : List Participant} {events : List Event} {evIdx : Nat}
    (hEv : evIdx < events.length) :
    ∀ (n : Nat) {st : AState} {cc gc : Counts}, Inv ps events st →
      Inv ps events (fillEvent ps events evIdx n st cc gc) := by
  intro n
  induction n with
  | zero => intro st cc gc hInv; exact hInv
  | succ n ih =>
    intro st cc gc hInv
    rw [fillEvent_succ]
    cases h : chooseFor ps events (events.getD evIdx defaultEvent) cc gc st with
    | none => exact hInv
    | some i =>
      have hmem := mem_candidatesFor.mp (chooseFor_mem h)
      exact ih (commit_inv hInv hmem.1 hEv hmem.2)

theorem runPrefix_succ (ps : List Participant) (events : List Event) (k : Nat) :
    runPrefix ps events (k + 1) =
      fillEvent ps events k (events.getD k defaultEvent).capacity
        (runPrefix ps events k) (fun _ => 0) (fun _ => 0) := by
  rw [runPrefix, List.range_succ, List.foldl_append, List.foldl_cons, List.foldl_nil]
  rfl

theorem runPrefix_inv (ps : List Participant) (events : List Event) :
    ∀ k : Nat, Inv ps events (runPrefix ps events k) := by
  intro k
  induction k with
  | zero => exact inv_init ps events
  | succ k ih =>
    rw [runPrefix_succ]
    by_cases hk : k < events.length
    · exact fill_inv hk _ ih
    · have hcap : (events.getD k defaultEvent).capacity = 0 := by
        rw [getD_oor defaultEvent (by omega)]
        rfl
      rw [hcap]
      exact ih

theorem assign_inv (ps : List Participant) (events : List Event) :
    Inv ps events (assign_events ps events) :=
  runPrefix_inv ps events events.length

/-! ### The 2-assignment cap, at every commit point -/

theorem fill_cap2 {ps : List Participant} {events : List Event} {evIdx : Nat} :
    ∀ (n : Nat) {st : AState} {cc gc : Counts},
      (∀ i, (st.pA.getD i []).length ≤ 2) →
      ∀ i, ((fillEvent ps events evIdx n st cc gc).pA.getD i []).length ≤ 2 := by
  intro n
  induction n with
  | zero => intro st cc gc h i; exact h i
  | succ n ih =>
    intro st cc gc h i
    rw [fillEvent_succ]
    cases hch : chooseFor ps events (events.getD evIdx defaultEvent) cc gc st with
    | none => exact h i
    | some i0 =>
      apply ih
      intro i'
      have hmem := mem_candidatesFor.mp (chooseFor_mem hch)
      have hlt : (st.pA.getD i0 []).length < 2 := (eligibleB_iff.mp hmem.2).1
      by_cases hii : i' = i0
      · subst hii
        by_cases hP : i' < st.pA.length
        · rw [show (commitState st i' evIdx).pA.getD i' [] =
              st.pA.getD i' [] ++ [evIdx] from getD_set_self hP]
          rw [List.length_append]
          simp only [List.length_cons, List.length_nil]
          omega
        · rw [show (commitState st i' evIdx).pA = st.pA from by
            simp [commitState, List.set_eq_of_length_le (by omega : st.pA.length ≤ i')]]
          exact h i'
      · rw [show (commitState st i0 evIdx).pA.getD i' [] =
            st.pA.getD i' [] from getD_set_ne _ _ hii]
        exact h i'

theorem runPrefix_cap2 (ps : List Participant) (events : List Event) :
    ∀ k i, ((runPrefix ps events k).pA.getD i []).length ≤ 2 := by
  intro k
  induction k with
  | zero =>
    intro i
    rw [runPrefix, List.range_zero, List.foldl_nil]
    rw [getD_map_nil]
    simp
  | succ k ih =>
    intro i
    rw [runPrefix_succ]
    exact fill_cap2 _ ih i

/-! ### Capacity bound on each event's list -/

theorem fill_eA_other {ps : List Participant} {events : List Event}
    {evIdx ei : Nat} (hne : ei ≠ evIdx) :
    ∀ (n : Nat) {st : AState} {cc gc : Counts},
      (fillEvent ps events evIdx n st cc gc).eA.getD ei [] = st.eA.getD ei [] := by
  intro n
  induction n with
  | zero => intro st cc gc; rfl
  | succ n ih =>
    intro st cc gc
    rw [fillEvent_succ]
    cases hch : chooseFor ps events (events.getD evIdx defaultEvent) cc gc st with
    | none => rfl
    | some i0 =>
      rw [ih]
      exact getD_set_ne _ _ hne

theorem fill_eA_len {ps : List Participant} {events : List Event} {evIdx : Nat} :
    ∀ (n : Nat) {st : AState} {cc gc : Counts},
      ((fillEvent ps events evIdx n st cc gc).eA.getD evIdx []).length ≤
        (st.eA.getD evIdx []).length + n := by
  intro n
  induction n with
  | zero =>
    intro st cc gc
    show (st.eA.getD evIdx []).length ≤ (st.eA.getD evIdx []).length + 0
    omega
  | succ n ih =>
    intro st cc gc
    rw [fillEvent_succ]
    cases hch : chooseFor ps events (events.getD evIdx defaultEvent) cc gc st with
    | none =>
      show (st.eA.getD evIdx []).length ≤ (st.eA.getD evIdx []).length + (n + 1)
      omega
    | some i0 =>
      have hstep : ((commitState st i0 evIdx).eA.getD evIdx []).length ≤
          (st.eA.getD evIdx []).length + 1 := by
        by_cases hE : evIdx < st.eA.length
        · rw [show (commitState st i0 evIdx).eA.getD evIdx [] =
              st.eA.getD evIdx [] ++ [i0] from getD_set_self hE]
          rw [List.length_append]
          simp only [List.length_cons, List.length_nil]
          omega
        · rw [show (commitState st i0 evIdx).eA = st.eA from by
            simp [commitState, List.set_eq_of_length_le (by omega : st.eA.length ≤ evIdx)]]
          omega
      calc ((fillEvent ps events evIdx n (commitState st i0 evIdx) _ _).eA.getD evIdx []).length
          ≤ ((commitState st i0 evIdx).eA.getD evIdx []).length + n := ih
        _ ≤ (st.eA.getD evIdx []).length + (n + 1) := by omega

theorem runPrefix_eA_empty (ps : List Participant) (events : List Event) :
    ∀ k ei, k ≤ ei → (runPrefix ps events k).eA.getD ei [] = [] := by
  intro k
  induction k with
  | zero =>
    intro ei _
    rw [runPrefix, List.range_zero, List.foldl_nil]
    exact getD_map_nil events ei
  | succ k ih =>
    intro ei hk
    rw [runPrefix_succ, fill_eA_other (by omega)]
    exact ih ei (by omega)

theorem runPrefix_capacity (ps : List Participant) (events : List Event) :
    ∀ k ei, ((runPrefix ps events k).eA.getD ei []).length ≤
      (events.getD ei defaultEvent).capacity := by
  intro k
  induction k with
  | zero =>
    intro ei
    rw [runPrefix, List.range_zero, List.foldl_nil, getD_map_nil]
    simp
  | succ k ih =>
    intro ei
    by_cases hei : ei = k
    · subst hei
      rw [runPrefix_succ]
      have h1 := @fill_eA_len ps events ei
        (events.getD ei defaultEvent).capacity
        (runPrefix ps events ei) (fun _ => 0) (fun _ => 0)
      rw [runPrefix_eA_empty ps events ei ei (by omega)] at h1
      simpa using h1
    · rw [runPrefix_succ, fill_eA_other hei]
      exact ih ei

/-! ### Benign under-fill: each slot consumes exactly one candidate -/

theorem filter_update_length {p q : Nat → Bool} {a : Nat} :
    ∀ {l : List Nat}, l.Nodup → a ∈ l → p a = false → q a = true →
      (∀ b ∈ l, b ≠ a → p b = q b) →
      (l.filter p).length + 1 = (l.filter q).length := by
  intro l
  induction l with
  | nil => intro _ h; cases h
  | cons x xs ih =>
    intro hnd hmem hp hq hpq
    have hxnotin : x ∉ xs := (List.nodup_cons.mp hnd).1
    rcases List.mem_cons.mp hmem with hx | hx
    · subst hx
      rw [List.filter_cons_of_neg (by simp [hp]), List.filter_cons_of_pos (by simp [hq])]
      have hcongr : xs.filter p = xs.filter q := by
        apply List.filter_congr
        intro b hb
        exact hpq b (List.mem_cons_of_mem _ hb) (fun h => hxnotin (h ▸ hb))
      rw [hcongr, List.length_cons]
    · have hxa : x ≠ a := fun h => hxnotin (h ▸ hx)
      have hpx : p x = q x := hpq x (List.mem_cons_self x xs) hxa
      have ihr := ih (List.nodup_cons.mp hnd).2 hx hp hq
        (fun b hb hba => hpq b (List.mem_cons_of_mem _ hb) hba)
      rcases hqx : q x with _ | _
      · rw [List.filter_cons_of_neg (by simp [hpx, hqx]),
          List.filter_cons_of_neg (by simp [hqx])]
        exact ihr
      · rw [List.filter_cons_of_pos (by simp [hpx, hqx]),
          List.filter_cons_of_pos (by simp [hqx])]
        rw [List.length_cons, List.length_cons]
        omega

theorem eligibleB_self_false (events : List Event) (evIdx : Nat) (l : List Nat) :
    eligibleB events (events.getD evIdx defaultEvent) (l ++ [evIdx]) = false := by
  rw [Bool.eq_false_iff]
  intro h
  have h30 := (eligibleB_iff.mp h).2 evIdx
    (List.mem_append.mpr (Or.inr (List.mem_singleton.mpr rfl)))
  rw [days_between_self] at h30
  omega

/-- Committing a chosen candidate removes it, and only it, from the
candidate pool of the same event. -/
theorem candidates_commit_length {ps : List Participant} {events : List Event}
    {evIdx i0 : Nat} {st : AState} (hplen : st.pA.length = ps.length)
    (hmem : i0 ∈ candidatesFor ps events (events.getD evIdx defaultEvent) st) :
    (candidatesFor ps events (events.getD evIdx defaultEvent)
        (commitState st i0 evIdx)).length + 1 =
      (candidatesFor ps events (events.getD evIdx defaultEvent) st).length := by
  have hm := mem_candidatesFor.mp hmem
  have hi0 : i0 < st.pA.length := hplen ▸ hm.1
  rw [candidatesFor, candidatesFor]
  apply filter_update_length (List.nodup_range ps.length) (List.mem_range.mpr hm.1)
  · rw [show (commitState st i0 evIdx).pA.getD i0 [] =
        st.pA.getD i0 [] ++ [evIdx] from getD_set_self hi0]
    exact eligibleB_self_false events evIdx _
  · exact hm.2
  · intro b _ hb
    rw [show (commitState st i0 evIdx).pA.getD b [] =
        st.pA.getD b [] from getD_set_ne _ _ hb]

/-- Exactly `min fuel |pool|` participants are committed to the event being
filled: the loop stops early exactly when the pool runs out. -/
theorem fill_count {ps : List Participant} {events : List Event} {evIdx : Nat} :
    ∀ (n : Nat) {st : AState} {cc gc : Counts},
      st.pA.length = ps.length → evIdx < st.eA.length →
      ((fillEvent ps events evIdx n st cc gc).eA.getD evIdx []).length =
        (st.eA.getD evIdx []).length +
          min n (candidatesFor ps events (events.getD evIdx defaultEvent) st).length := by
  intro n
  induction n with
  | zero =>
    intro st cc gc _ _
    show (st.eA.getD evIdx []).length = (st.eA.getD evIdx []).length + min 0 _
    omega
  | succ n ih =>
    intro st cc gc hplen hE
    rw [fillEvent_succ]
    cases hch : chooseFor ps events (events.getD evIdx defaultEvent) cc gc st with
    | none =>
      rw [chooseFor_none hch]
      show (st.eA.getD evIdx []).length = (st.eA.getD evIdx []).length + min (n + 1) [].length
      simp
    | some i0 =>
      have hmem := chooseFor_mem hch
      have hlen := candidates_commit_length hplen hmem
      have hplen' : (commitState st i0 evIdx).pA.length = ps.length := by
        rw [commitState, List.length_set]
        exact hplen
      have hE' : evIdx < (commitState st i0 evIdx).eA.length := by
        rw [commitState, List.length_set]
        exact hE
      rw [ih hplen' hE']
      rw [show (commitState st i0 evIdx).eA.getD evIdx [] =
          st.eA.getD evIdx [] ++ [i0] from getD_set_self hE]
      rw [List.length_append]
      simp only [List.length_cons, List.length_nil]
      omega

/-! ### The ranking key, as the spec words it (claim C1) -/

/-- Modelled from the spec: 1 iff both `participant.preferredSchool` and
`event.schoolEvent` are set and differ. -/
def specSchoolMismatch (p : Participant) (ev : Event) : Nat :=
  if p.preferred_school ≠ none ∧ ev.school_event ≠ none ∧
      p.preferred_school ≠ ev.school_event then 1 else 0

/-- Modelled from the spec: 1 iff `preferredDays` is non-empty and the
event's lowercased weekday is not in it. -/
def specDayMismatch (p : Participant) (ev : Event) : Nat :=
  if p.preferred_days = [] then 0
  else if dayName ev.date ∈ p.preferred_days then 0 else 1

/-- Modelled from the spec: the participant's distance, or 0.0 when unset. -/
def specDistanceScore (p : Participant) : ℚ :=
  match p.distance with
  | some d => d
  | none => 0

/-- Modelled from the spec: the current per-event country count for the
participant's country, without pre-incrementing; 0 when the participant has
no country (an unseen country reads 0 from the defaulting counter). -/
def specCountryScore (cc : Counts) (p : Participant) : Nat :=
  (p.country.map cc).getD 0

/-- Modelled from the spec: the absolute M-count/F-count difference that
would result if this one candidate were added to a copy of the per-event
gender counters. -/
def specGenderScore (gc : Counts) (p : Participant) : Nat :=
  (((gc "M" : Int) + (if p.gender = some "M" then 1 else 0)) -
    ((gc "F" : Int) + (if p.gender = some "F" then 1 else 0))).natAbs

theorem gender_diff_spec (gc : Counts) (p : Participant) :
    gender_diff gc p.gender = specGenderScore gc p := by
  rcases hg : p.gender with _ | s
  · simp [gender_diff, bumpIf, truthy, specGenderScore, hg]
  · by_cases hs : s = ""
    · subst hs
      have h0 : ("" : String).isEmpty = true := rfl
      have h1 : ¬ (some "" = some "M") := by decide
      have h2 : ¬ (some "" = some "F") := by decide
      simp [gender_diff, bumpIf, truthy, specGenderScore, hg, h0, h1, h2]
    · have hne : s.isEmpty = false := by
        rw [Bool.eq_false_iff]
        intro hc
        exact hs ((String.isEmpty_iff s).mp hc)
      by_cases hM : s = "M"
      · subst hM
        simp [gender_diff, bumpIf, truthy, specGenderScore, hg, hne, bump]
      · by_cases hF : s = "F"
        · subst hF
          simp [gender_diff, bumpIf, truthy, specGenderScore, hg, hne, bump]
        · have hM' : ¬ ((("M" : String) = s)) := fun h => hM h.symm
          have hF' : ¬ ((("F" : String) = s)) := fun h => hF h.symm
          simp [gender_diff, bumpIf, truthy, specGenderScore, hg, hne, bump, hM', hF',
            hM, hF]

/-- C1: for every slot of every event, the ranking key computed for an
eligible participant equals the 5-tuple (schoolMismatch, dayMismatch,
distanceScore, countryScore, genderScore) as the spec defines it:
countryScore reads the current per-event country counter without
pre-incrementing, and genderScore is the |M − F| value that would result
from speculatively adding this one candidate to a copy of the gender
counters. -/
theorem claim_C1 (p : Participant) (ev : Event) (cc gc : Counts) :
    candidate_key p ev cc gc =
      ⟨specSchoolMismatch p ev, specDayMismatch p ev, specDistanceScore p,
       specCountryScore cc p, specGenderScore gc p⟩ := by
  simp only [candidate_key, Key.mk.injEq]
  refine ⟨?_, ?_, ?_, ?_, gender_diff_spec gc p⟩
  · rw [specSchoolMismatch]
    rcases p.preferred_school with _ | b <;> rcases hc : ev.school_event with _ | c <;>
      simp [hc]
  · rw [specDayMismatch]
    by_cases hd : p.preferred_days = [] <;>
      by_cases hm : dayName ev.date ∈ p.preferred_days <;> simp [hd, hm]
  · rw [specDistanceScore]
    rcases p.distance with _ | d <;> rfl
  · rw [specCountryScore]
    rcases p.country with _ | c <;> rfl

/-! ### `filter_participants` (claim C10) -/

/-- `day = day.lower() if day else None` from the source. -/
def normDay : Option String → Option String
  | none => none
  | some s => if s = "" then none else some s.toLower

/-- `if gender and (p.gender or "").upper() != gender.upper()`. -/
def genderExcl (gender : Option String) (p : Participant) : Bool :=
  truthy gender &&
    decide ((p.gender.getD "").toUpper ≠ (gender.getD "").toUpper)

/-- `if country and (p.country or "").lower() != country.lower()`. -/
def countryExcl (country : Option String) (p : Participant) : Bool :=
  truthy country &&
    decide ((p.country.getD "").toLower ≠ (country.getD "").toLower)

/-- `if day and p.preferred_days and day not in p.preferred_days`, applied
to the already-normalised day. -/
def dayExcl (day : Option String) (p : Participant) : Bool :=
  match day with
  | none => false
  | some d => !p.preferred_days.isEmpty && decide (d ∉ p.preferred_days)

/-- `if school is not None and p.preferred_school is not None and
p.preferred_school != school`. -/
def schoolExcl (school : Option Bool) (p : Participant) : Bool :=
  match school, p.preferred_school with
  | some s, some q => decide (q ≠ s)
  | _, _ => false

/-- `if max_distance is not None and p.distance is not None and
p.distance > max_distance`. -/
def distExcl (max_distance : Option ℚ) (p : Participant) : Bool :=
  match max_distance, p.distance with
  | some m, some d => decide (m < d)
  | _, _ => false

/-- `filter_participants` from the source: keep, in input order, the
participants that no criterion excludes. -/
def filter_participants (ps : List Participant) (gender country day : Option String)
    (school : Option Bool) (max_distance : Option ℚ) : List Participant :=
  ps.filter (fun p =>
    !genderExcl gender p && !countryExcl country p && !dayExcl (normDay day) p &&
      !schoolExcl school p && !distExcl max_distance p)

theorem dayExcl_empty (day : Option String) (p : Participant)
    (h : p.preferred_days = []) : dayExcl day p = false := by
  cases day with
  | none => rfl
  | some d => simp [dayExcl, h]

/-! ### Witness fixtures -/

def p3 : Participant := ⟨"P3", none, [], none, none, none⟩

def p4 : Participant := ⟨"P4", none, [], none, none, none⟩

def evB : Event := ⟨"B", 700000, "L", 5, none⟩

def evC1 : Event := ⟨"C1", 700000, "L", 1, none⟩

def evC2 : Event := ⟨"C2", 700040, "L", 1, none⟩

/-! ### The claims -/

/-- C2: for each slot, the engine commits the eligible participant whose
5-tuple key is minimal under ascending lexicographic order; on equal keys
the participant occurring earlier in the input list (smaller index) is
chosen. -/
theorem claim_C2 (ps : List Participant) (events : List Event) (evIdx : Nat)
    (cc gc : Counts) (st : AState) (c : Nat)
    (h : chooseFor ps events (events.getD evIdx defaultEvent) cc gc st = some c) :
    (∀ n, fillEvent ps events evIdx (n + 1) st cc gc =
      fillEvent ps events evIdx n (commitState st c evIdx)
        (bumpIf cc (ps.getD c defaultParticipant).country)
        (bumpIf gc (ps.getD c defaultParticipant).gender)) ∧
    c ∈ candidatesFor ps events (events.getD evIdx defaultEvent) st ∧
    ∀ d ∈ candidatesFor ps events (events.getD evIdx defaultEvent) st,
      keyLe (keyOf ps (events.getD evIdx defaultEvent) cc gc c)
          (keyOf ps (events.getD evIdx defaultEvent) cc gc d) = true ∧
      (keyOf ps (events.getD evIdx defaultEvent) cc gc d =
          keyOf ps (events.getD evIdx defaultEvent) cc gc c → c ≤ d) := by
  have hfind := h
  rw [chooseFor_eq_find] at hfind
  have hmem := List.mem_of_find?_eq_some hfind
  have hallc : (candidatesFor ps events (events.getD evIdx defaultEvent) st).all
      (fun d => keyLe (keyOf ps (events.getD evIdx defaultEvent) cc gc c)
        (keyOf ps (events.getD evIdx defaultEvent) cc gc d)) = true :=
    List.find?_some
      (p := fun c' => (candidatesFor ps events (events.getD evIdx defaultEvent) st).all
        (fun d => keyLe (keyOf ps (events.getD evIdx defaultEvent) cc gc c')
          (keyOf ps (events.getD evIdx defaultEvent) cc gc d))) hfind
  refine ⟨?_, hmem, ?_⟩
  · intro n
    rw [fillEvent_succ, h]
  · intro d hd
    refine ⟨List.all_eq_true.mp hallc d hd, ?_⟩
    intro heq
    have hPd : (candidatesFor ps events (events.getD evIdx defaultEvent) st).all
        (fun x => keyLe (keyOf ps (events.getD evIdx defaultEvent) cc gc d)
          (keyOf ps (events.getD evIdx defaultEvent) cc gc x)) = true := by
      rw [heq]
      exact hallc
    exact find_min_le (candidatesFor_pairwise ps events _ st) hfind hd hPd

/-- Witness for C2 on a concrete pool: the choice is participant 0. -/
theorem claim_C2_witness :
    (chooseFor [p1, p2] [evA] (([evA] : List Event).getD 0 defaultEvent)
        (fun _ => 0) (fun _ => 0) ⟨[[], []], [[]]⟩ = some 0) ∧
    0 ∈ candidatesFor [p1, p2] [evA] (([evA] : List Event).getD 0 defaultEvent)
      ⟨[[], []], [[]]⟩ :=
  ⟨by decide,
   (claim_C2 [p1, p2] [evA] 0 (fun _ => 0) (fun _ => 0) ⟨[[], []], [[]]⟩ 0
     (by decide)).2.1⟩

/-- C3: after `assign_events`, any two distinct events assigned to the same
participant are at least 30 days apart. -/
theorem claim_C3 (ps : List Participant) (events : List Event) (i e1 e2 : Nat)
    (h1 : e1 ∈ (assign_events ps events).pA.getD i [])
    (h2 : e2 ∈ (assign_events ps events).pA.getD i [])
    (hne : e1 ≠ e2) :
    30 ≤ days_between (events.getD e1 defaultEvent).date
      (events.getD e2 defaultEvent).date :=
  ((assign_inv ps events).spac i).forall (spaced_symm events) h1 h2 hne

/-- Witness for C3: one participant assigned to two events 40 days apart. -/
theorem claim_C3_witness :
    (0 ∈ (assign_events [p1] [evC1, evC2]).pA.getD 0 [] ∧
      1 ∈ (assign_events [p1] [evC1, evC2]).pA.getD 0 [] ∧ (0 : Nat) ≠ 1) ∧
    30 ≤ days_between (([evC1, evC2] : List Event).getD 0 defaultEvent).date
      (([evC1, evC2] : List Event).getD 1 defaultEvent).date :=
  ⟨⟨by decide, by decide, by decide⟩,
   claim_C3 [p1] [evC1, evC2] 0 0 1 (by decide) (by decide) (by decide)⟩

/-- C4: every participant's assignment list has length at most 2, after the
run and at every intermediate commit point (any prefix of events, any
number of slot iterations of the next event). -/
theorem claim_C4 (ps : List Participant) (events : List Event) :
    (∀ i, ((assign_events ps events).pA.getD i []).length ≤ 2) ∧
    (∀ k j i, ((midState ps events k j).pA.getD i []).length ≤ 2) := by
  constructor
  · intro i
    exact runPrefix_cap2 ps events events.length i
  · intro k j i
    rw [midState]
    exact fill_cap2 j (runPrefix_cap2 ps events k) i

/-- C5: every event's assignment list has length at most its capacity. -/
theorem claim_C5 (ps : List Participant) (events : List Event) (ei : Nat) :
    ((assign_events ps events).eA.getD ei []).length ≤
      (events.getD ei defaultEvent).capacity :=
  runPrefix_capacity ps events events.length ei

/-- C6: assignment is symmetric — a participant index is in an event's list
iff that event's index is in the participant's list. -/
theorem claim_C6 (ps : List Participant) (events : List Event) (i j : Nat) :
    i ∈ (assign_events ps events).eA.getD j [] ↔
      j ∈ (assign_events ps events).pA.getD i [] :=
  (assign_inv ps events).sym i j

/-- C7: no participant appears more than once in a single event's list. -/
theorem claim_C7 (ps : List Participant) (events : List Event) (j : Nat) :
    ((assign_events ps events).eA.getD j []).Nodup :=
  (assign_inv ps events).eNd j

/-- C8: an empty candidate pool stops the fill of the current event with no
error (the run is a total function and processing continues with the next
event in the fold); and each event ends with exactly
`min capacity |initial pool|` commits, so `k` eligible participants with
`k < capacity` yield exactly `k` assignments. -/
theorem claim_C8 :
    (∀ (ps : List Participant) (events : List Event) (evIdx n : Nat)
        (st : AState) (cc gc : Counts),
      candidatesFor ps events (events.getD evIdx defaultEvent) st = [] →
      fillEvent ps events evIdx (n + 1) st cc gc = st) ∧
    (∀ (ps : List Participant) (events : List Event) (evIdx n : Nat)
        (st : AState) (cc gc : Counts),
      st.pA.length = ps.length → evIdx < st.eA.length →
      ((fillEvent ps events evIdx n st cc gc).eA.getD evIdx []).length =
        (st.eA.getD evIdx []).length +
          min n (candidatesFor ps events (events.getD evIdx defaultEvent) st).length) := by
  constructor
  · intro ps events evIdx n st cc gc h
    have hnone : chooseFor ps events (events.getD evIdx defaultEvent) cc gc st = none := by
      rw [chooseFor_eq_find, h]
      rfl
    rw [fillEvent_succ, hnone]
  · intro ps events evIdx n st cc gc h1 h2
    exact fill_count n h1 h2

/-- Witness for C8: an event with an empty pool is left untouched, and a
capacity-5 event with 3 eligible participants gets exactly min 5 3 = 3. -/
theorem claim_C8_witness :
    (candidatesFor [] [evB] (([evB] : List Event).getD 0 defaultEvent) ⟨[], [[]]⟩ = [] ∧
      fillEvent [] [evB] 0 1 ⟨[], [[]]⟩ (fun _ => 0) (fun _ => 0) = ⟨[], [[]]⟩) ∧
    ((⟨[[], [], []], [[]]⟩ : AState).pA.length =
        ([p1, p3, p4] : List Participant).length ∧
      (0 : Nat) < (⟨[[], [], []], [[]]⟩ : AState).eA.length ∧
      ((fillEvent [p1, p3, p4] [evB] 0 5 ⟨[[], [], []], [[]]⟩
          (fun _ => 0) (fun _ => 0)).eA.getD 0 []).length =
        ((⟨[[], [], []], [[]]⟩ : AState).eA.getD 0 []).length +
          min 5 (candidatesFor [p1, p3, p4] [evB]
            (([evB] : List Event).getD 0 defaultEvent) ⟨[[], [], []], [[]]⟩).length) :=
  ⟨⟨by decide, claim_C8.1 [] [evB] 0 0 ⟨[], [[]]⟩ (fun _ => 0) (fun _ => 0) (by decide)⟩,
   ⟨by decide, by decide,
    claim_C8.2 [p1, p3, p4] [evB] 0 5 ⟨[[], [], []], [[]]⟩ (fun _ => 0) (fun _ => 0)
      (by decide) (by decide)⟩⟩

/-- C9: the engine is deterministic — equal inputs give equal assignment
state (`assign_events` is a pure function of its inputs). -/
theorem claim_C9 (ps1 ps2 : List Participant) (ev1 ev2 : List Event)
    (hp : ps1 = ps2) (he : ev1 = ev2) :
    assign_events ps1 ev1 = assign_events ps2 ev2 := by
  rw [hp, he]

/-- Witness for C9 at a concrete input. -/
theorem claim_C9_witness :
    (([p1, p2] : List Participant) = [p1, p2] ∧ ([evA] : List Event) = [evA]) ∧
    assign_events [p1, p2] [evA] = assign_events [p1, p2] [evA] :=
  ⟨⟨rfl, rfl⟩, claim_C9 [p1, p2] [p1, p2] [evA] [evA] rfl rfl⟩

/-- C10: in `filter_participants`, an empty `preferred_days` always passes
the day criterion (for any non-None day argument the participant is not
excluded by the day check; its membership depends only on the other four
checks), and the returned list preserves the input order (it is a sublist
of the input). -/
theorem claim_C10 :
    (∀ (day : Option String) (p : Participant), day ≠ none →
      p.preferred_days = [] → dayExcl (normDay day) p = false) ∧
    (∀ (ps : List Participant) (gender country day : Option String)
        (school : Option Bool) (maxd : Option ℚ) (p : Participant),
      p.preferred_days = [] →
      (p ∈ filter_participants ps gender country day school maxd ↔
        p ∈ ps ∧ genderExcl gender p = false ∧ countryExcl country p = false ∧
          schoolExcl school p = false ∧ distExcl maxd p = false)) ∧
    (∀ (ps : List Participant) (gender country day : Option String)
        (school : Option Bool) (maxd : Option ℚ),
      (filter_participants ps gender country day school maxd).Sublist ps) := by
  refine ⟨?_, ?_, ?_⟩
  · intro day p _ h
    exact dayExcl_empty _ p h
  · intro ps g c d sc m p h
    rw [filter_participants, List.mem_filter]
    simp only [dayExcl_empty (normDay d) p h, Bool.and_eq_true, Bool.not_eq_true',
      Bool.not_false, and_true]
    tauto
  · intro ps g c d sc m
    exact List.filter_sublist ps

/-- Witness for C10: a concrete non-None day and a participant with no day
preference. -/
theorem claim_C10_witness :
    ((some "monday" ≠ (none : Option String)) ∧ p1.preferred_days = []) ∧
    dayExcl (normDay (some "monday")) p1 = false :=
  ⟨⟨by decide, rfl⟩, claim_C10.1 (some "monday") p1 (by decide) rfl⟩

end Matching
